import Mathlib

/-!
# A verification development for the `nm_lib` finite-difference library

This file gives a shallow embedding, over exact rational arithmetic, of the
core of `nm_lib/nm_lib.py`: 1-D arrays become functions `Fin n → ℚ`, `np.roll`
becomes cyclic index shifts, `np.pad(..., "wrap")` becomes an explicit
slicing/re-padding function, and each time stepper becomes a structurally
recursive loop producing the list of time values and field snapshots.
Fallible NumPy operations (padding an empty slice, arithmetic with `None`)
are modelled with `Option`; IEEE division by zero, which yields `inf` rather
than raising, is modelled with `WithTop ℚ` where that behaviour matters.
Every definition is written to follow the Python source line by line; the
theorems at the end of the file settle the specification claims about it.
-/

set_option linter.unusedVariables false

namespace NmLib

/-- A 1-D NumPy array of length `n`, as a function on indices. -/
abbrev Vec (n : ℕ) := Fin n → ℚ

/-- The type of the `ddx` arguments: a spatial-derivative operator taking
the grid `xx` and the field `hh`. -/
abbrev DDx (n : ℕ) := Vec n → Vec n → Vec n

/-- Positional (non-cyclic) array access `v[k]`; Python raises `IndexError`
out of range, here out-of-range reads return the junk value `0` (never
exercised by the theorems below, which keep indices in range). -/
def vget {n : ℕ} (v : Vec n) (k : ℕ) : ℚ :=
  if h : k < n then v ⟨k, h⟩ else 0

/-- Minimum of two rationals, the way a fold of NumPy's minimum works. -/
def qmin (p q : ℚ) : ℚ := if p ≤ q then p else q

/-- Maximum of two rationals. -/
def qmax (p q : ℚ) : ℚ := if p ≤ q then q else p

/-- The `np.min` of a (nonempty) list: fold of the binary minimum over the
elements.  NumPy raises on an empty array; the junk value `0` stands in. -/
def listMin : List ℚ → ℚ
  | [] => 0
  | x :: xs => xs.foldl qmin x

/-- The `np.max` of a (nonempty) list. -/
def listMax : List ℚ → ℚ
  | [] => 0
  | x :: xs => xs.foldl qmax x

/-- The `np.min` over an array of length `n`. -/
def npMin {n : ℕ} (v : Vec n) : ℚ := listMin (List.ofFn v)

/-- The `np.max` over an array of length `n`. -/
def npMax {n : ℕ} (v : Vec n) : ℚ := listMax (List.ofFn v)

/-- The `np.gradient(x)` for a 1-D array: one-sided differences at the two ends,
centred differences inside (NumPy's default second-order edge handling for
the interior, first order at the edges).  Matches NumPy for `n ≥ 2`; NumPy
raises for `n < 2`, a case no theorem below exercises. -/
def npGradient {n : ℕ} (x : Vec n) : Vec n := fun i =>
  if (i : ℕ) = 0 then vget x 1 - vget x 0
  else if (i : ℕ) = n - 1 then vget x (n - 1) - vget x (n - 2)
  else (vget x ((i : ℕ) + 1) - vget x ((i : ℕ) - 1)) / 2

/-- The `cfl_adv_burger(a, x) = np.min(np.gradient(x) / np.abs(a))`, the exact
value of the advective CFL estimate when no division by zero occurs (the
coefficient `a` is taken in per-point array form; a Python scalar broadcasts
to the constant array).  `cfl_adv_burger_fl` below models the IEEE `inf`
behaviour of the same source line when `a` has zeros. -/
def cfl_adv_burger {n : ℕ} (a x : Vec n) : ℚ :=
  npMin (fun i => npGradient x i / |a i|)

/-- The `cfl_diff_burger(a, x) = np.min(dx**2 / (2*np.abs(a)))` with
`dx = np.gradient(x)`, exact-arithmetic form. -/
def cfl_diff_burger {n : ℕ} (a x : Vec n) : ℚ :=
  npMin (fun i => npGradient x i ^ 2 / (2 * |a i|))

/-- IEEE float division as NumPy performs it on the CFL source lines: a zero
divisor yields `inf` (modelled as `⊤`) together with a `RuntimeWarning`, not
an exception.  Faithful for the nonnegative numerators (grid spacings of an
increasing grid) these lines produce. -/
def divFl (p q : ℚ) : WithTop ℚ := if q = 0 then ⊤ else ((p / q : ℚ) : WithTop ℚ)

/-- Binary minimum on `WithTop ℚ` (`inf` compares greater than everything). -/
def wmin (p q : WithTop ℚ) : WithTop ℚ := if p ≤ q then p else q

/-- The `np.min` of a list of float-like values. -/
def listMinFl : List (WithTop ℚ) → WithTop ℚ
  | [] => ⊤
  | x :: xs => xs.foldl wmin x

/-- The `cfl_adv_burger` with the float semantics of its division: zeros in `a`
produce `inf` entries, and `np.min` propagates them when every entry is
`inf`.  The function is total — the source line raises no exception. -/
def cfl_adv_burger_fl {n : ℕ} (a x : Vec n) : WithTop ℚ :=
  listMinFl (List.ofFn (fun i => divFl (npGradient x i) |a i|))

/-- The `cfl_diff_burger` with the float semantics of its division. -/
def cfl_diff_burger_fl {n : ℕ} (a x : Vec n) : WithTop ℚ :=
  listMinFl (List.ofFn (fun i => divFl (npGradient x i ^ 2) (2 * |a i|)))

/-- The `deriv_dnw(xx, hh) = (np.roll(hh, -1) - hh) / (np.roll(xx, -1) - xx)`:
the downwind stencil with NumPy's cyclic index wrap. -/
def deriv_dnw {n : ℕ} [NeZero n] (xx hh : Vec n) : Vec n := fun i =>
  (hh (i + 1) - hh i) / (xx (i + 1) - xx i)

/-- The `deriv_upw(xx, hh) = (hh - np.roll(hh, 1)) / (xx - np.roll(xx, 1))`. -/
def deriv_upw {n : ℕ} [NeZero n] (xx hh : Vec n) : Vec n := fun i =>
  (hh i - hh (i - 1)) / (xx i - xx (i - 1))

/-- The `deriv_cent(xx, hh) = (np.roll(hh,-1) - np.roll(hh,1)) / (np.roll(xx,-1) - np.roll(xx,1))`. -/
def deriv_cent {n : ℕ} [NeZero n] (xx hh : Vec n) : Vec n := fun i =>
  (hh (i + 1) - hh (i - 1)) / (xx (i + 1) - xx (i - 1))

/-- The `step_adv_burgers`: `dt = cfl_adv_burger(a, xx) * cfl_cut` and
`rhs = -a * ddx(xx, hh)`. -/
def step_adv_burgers {n : ℕ} (xx hh a : Vec n) (cfl_cut : ℚ) (ddx : DDx n) :
    ℚ × Vec n :=
  (cfl_adv_burger a xx * cfl_cut, fun i => -(a i) * ddx xx hh i)

/-- The `step_uadv_burgers`: `a = hh`, `dt = cfl_adv_burger(a, xx)` — note the
source does NOT multiply this `dt` by `cfl_cut` — and `rhs = -a * ddx(xx, hh)`.
The `cfl_cut` parameter is accepted and unused, as in the source. -/
def step_uadv_burgers {n : ℕ} (xx hh : Vec n) (cfl_cut : ℚ) (ddx : DDx n) :
    ℚ × Vec n :=
  (cfl_adv_burger hh xx, fun i => -(hh i) * ddx xx hh i)

/-- The boundary fix shared by every stepper:
`u_next_temp = u_next[bl : -br]` (or `u_next[bl:]` when `br = 0`) followed by
`np.pad(u_next_temp, [bl, br], "wrap")`.  The retained slice has length
`m = n - bl - br`; position `i` of the padded result reads the slice
cyclically at offset `(i - bl) mod m`, which is NumPy's wrap tiling.  When
the slice is empty (`bl + br ≥ n`) `np.pad` with mode `"wrap"` raises
`ValueError`, modelled as `none`.  No margin validation of any other kind is
performed by the source.  The `bnd_type` selector is fixed to its default
`"wrap"`, the only mode any claim exercises. -/
def fixBnd {n : ℕ} (bl br : ℕ) (u : Vec n) : Option (Vec n) :=
  if h : bl + br < n then
    some (fun i =>
      u ⟨bl + ((((i : ℕ) : ℤ) - (bl : ℤ)) % ((n - bl - br : ℕ) : ℤ)).toNat, by
        have hm : 0 < n - bl - br := by omega
        have hz : ((n - bl - br : ℕ) : ℤ) ≠ 0 := by exact_mod_cast hm.ne'
        have h0 := Int.emod_nonneg (((i : ℕ) : ℤ) - (bl : ℤ)) hz
        have h1 := Int.emod_lt_of_pos (((i : ℕ) : ℤ) - (bl : ℤ))
          (by exact_mod_cast hm : (0 : ℤ) < ((n - bl - br : ℕ) : ℤ))
        omega⟩)
  else none

/-- Total form of the boundary fix used inside the stepper loops; on the
`bl + br ≥ n` failure domain (where the Python loop would raise) it returns
its input unchanged — every theorem below about a stepper only uses margins
with `bl + br < n`, where `fixBndT` agrees with `fixBnd`. -/
def fixBndT {n : ℕ} (bl br : ℕ) (u : Vec n) : Vec n :=
  (fixBnd bl br u).getD u

/-- The generic time-marching loop shared verbatim by the explicit steppers:
starting from `t[0] = 0` and `field[0] = hh`, each iteration obtains
`(dt, padded next field)` from its scheme body and appends
`t[i+1] = t[i] + dt`.  `evolvLoop next k u t0` produces the `k` remaining
`(time, field)` pairs, so a stepper with `nt` requested snapshots runs it
with fuel `nt` — the loop body executes exactly `nt - 1` times. -/
def evolvLoop {n : ℕ} (next : Vec n → ℚ × Vec n) : ℕ → Vec n → ℚ → List (ℚ × Vec n)
  | 0, _, _ => []
  | k + 1, u, tc => (tc, u) :: evolvLoop next k (next u).2 (tc + (next u).1)

/-- The `evolv_adv_burgers`: per step, `(dt, rhs) = step_adv_burgers(...)`,
candidate `u_next = u + rhs*dt`, boundary fix, store, `t += dt`. -/
def evolv_adv_burgers {n : ℕ} (xx hh : Vec n) (nt : ℕ) (a : Vec n)
    (cfl_cut : ℚ) (ddx : DDx n) (bl br : ℕ) : List ℚ × List (Vec n) :=
  let l := evolvLoop (fun u =>
    let s := step_adv_burgers xx u a cfl_cut ddx
    (s.1, fixBndT bl br (fun j => u j + s.2 j * s.1))) nt hh 0
  (l.map Prod.fst, l.map Prod.snd)

/-- One loop body of `evolv_Lax_uadv_burgers`: `dt` from `step_uadv_burgers`
(whose `rhs` output is computed and then unused), candidate
`u_next = 0.5*(np.roll(u,-1)+np.roll(u,1)) - u*dt/(np.roll(xx,-1)-np.roll(xx,1)) * (np.roll(u,-1)-np.roll(u,1))`,
then the boundary fix. -/
def laxNext {n : ℕ} [NeZero n] (xx : Vec n) (cfl_cut : ℚ) (ddx : DDx n)
    (bl br : ℕ) (u : Vec n) : ℚ × Vec n :=
  let s := step_uadv_burgers xx u cfl_cut ddx
  (s.1, fixBndT bl br (fun j =>
    1 / 2 * (u (j + 1) + u (j - 1))
      - u j * s.1 / (xx (j + 1) - xx (j - 1)) * (u (j + 1) - u (j - 1))))

/-- The `evolv_Lax_uadv_burgers`. -/
def evolv_Lax_uadv_burgers {n : ℕ} [NeZero n] (xx hh : Vec n) (nt : ℕ)
    (cfl_cut : ℚ) (ddx : DDx n) (bl br : ℕ) : List ℚ × List (Vec n) :=
  let l := evolvLoop (laxNext xx cfl_cut ddx bl br) nt hh 0
  (l.map Prod.fst, l.map Prod.snd)

/-- The Rusanov local wave speed `v_a = np.maximum(np.abs(u_L), np.abs(u_R))`
with `u_L = u` and `u_R = np.roll(u, -1)`. -/
def rieVa {n : ℕ} [NeZero n] (u : Vec n) : Vec n := fun i =>
  qmax |u i| |u (i + 1)|

/-- The Rusanov interface flux
`F_{i+1/2} = 0.5*(F_L + F_R) - 0.5*v_a*(u_R - u_L)` with `F = 0.5*u²`. -/
def rieFlux {n : ℕ} [NeZero n] (u : Vec n) : Vec n := fun i =>
  1 / 2 * (1 / 2 * u i ^ 2 + 1 / 2 * u (i + 1) ^ 2)
    - 1 / 2 * rieVa u i * (u (i + 1) - u i)

/-- The flux-differencing candidate of `evolv_Rie_uadv_burgers`:
`u_next = u - dt * (F_plus05 - np.roll(F_plus05, 1)) / dx` with
`dx = xx[1] - xx[0]`. -/
def rieCand {n : ℕ} [NeZero n] (xx : Vec n) (u : Vec n) (dt : ℚ) : Vec n := fun i =>
  u i - dt * ((rieFlux u i - rieFlux u (i - 1)) / (vget xx 1 - vget xx 0))

/-- One loop body of `evolv_Rie_uadv_burgers`: note that the accepted step
size is `dt = cfl_adv_burger(v_a, xx)` with NO `cfl_cut` factor, exactly as
in the source. -/
def rieNext {n : ℕ} [NeZero n] (xx : Vec n) (bl br : ℕ) (u : Vec n) : ℚ × Vec n :=
  let dt := cfl_adv_burger (rieVa u) xx
  (dt, fixBndT bl br (rieCand xx u dt))

/-- The `evolv_Rie_uadv_burgers`; the `cfl_cut` and `ddx` parameters are accepted
and unused by the loop, as in the source. -/
def evolv_Rie_uadv_burgers {n : ℕ} [NeZero n] (xx hh : Vec n) (nt : ℕ)
    (cfl_cut : ℚ) (ddx : DDx n) (bl br : ℕ) : List ℚ × List (Vec n) :=
  let l := evolvLoop (rieNext xx bl br) nt hh 0
  (l.map Prod.fst, l.map Prod.snd)

/-- The `NR_f(xx, un, uo, a, dt) = un - uo - a*(np.roll(un,-1) - 2*un + np.roll(un,1))*dt/dx²`
with `dx = xx[1] - xx[0]`; `a` is the constant diffusion coefficient. -/
def NR_f {n : ℕ} [NeZero n] (xx un uo : Vec n) (a dt : ℚ) : Vec n := fun i =>
  un i - uo i - a * (un (i + 1) - 2 * un i + un (i - 1)) * dt / (vget xx 1 - vget xx 0) ^ 2

/-- The `jacobian(xx, un, a, dt)`: starts from the zero matrix and sets, for each
row `i`, the diagonal `J[i,i] = 1 + dt*2*a/dx²`, the superdiagonal
`J[i,i+1] = -dt*a/dx²` when `i < n-1`, and the subdiagonal
`J[i,i-1] = -dt*a/dx²` only when `i > 1` — the source's guard is `i > 1`,
not `i ≥ 1`, so row 1 keeps `J[1,0] = 0`.  The `un` argument is accepted and
unused, as in the source. -/
def jacobian {n : ℕ} (xx un : Vec n) (a dt : ℚ) : Fin n → Fin n → ℚ := fun i j =>
  if (j : ℕ) = (i : ℕ) then 1 + dt * 2 * a / (vget xx 1 - vget xx 0) ^ 2
  else if (j : ℕ) = (i : ℕ) + 1 then -dt * a / (vget xx 1 - vget xx 0) ^ 2
  else if 1 < (i : ℕ) ∧ (j : ℕ) + 1 = (i : ℕ) then -dt * a / (vget xx 1 - vget xx 0) ^ 2
  else 0

/-- The `NR_f_u(xx, un, uo, dt)`: the nonlinear variant with the local field value
`un` in place of the constant coefficient. -/
def NR_f_u {n : ℕ} [NeZero n] (xx un uo : Vec n) (dt : ℚ) : Vec n := fun i =>
  un i - uo i - un i * (un (i + 1) - 2 * un i + un (i - 1)) * dt / (vget xx 1 - vget xx 0) ^ 2

/-- The `jacobian_u(xx, un, dt)`: same shape as `jacobian` with the local value
`un[i]` replacing the constant `a` on row `i`; the subdiagonal guard is again
`i > 1`. -/
def jacobian_u {n : ℕ} (xx un : Vec n) (dt : ℚ) : Fin n → Fin n → ℚ := fun i j =>
  if (j : ℕ) = (i : ℕ) then 1 + dt * 2 * vget un (i : ℕ) / (vget xx 1 - vget xx 0) ^ 2
  else if (j : ℕ) = (i : ℕ) + 1 then -dt * vget un (i : ℕ) / (vget xx 1 - vget xx 0) ^ 2
  else if 1 < (i : ℕ) ∧ (j : ℕ) + 1 = (i : ℕ) then -dt * vget un (i : ℕ) / (vget xx 1 - vget xx 0) ^ 2
  else 0

/-- The `np.matmul(A, v)` for a square matrix and a vector. -/
def matVec {n : ℕ} (A : Fin n → Fin n → ℚ) (v : Vec n) : Vec n := fun i =>
  ∑ j, A i j * v j

/-- The `np.linalg.inv(A)` call: on an exactly singular matrix (zero
determinant, i.e. a zero pivot in the exact LU factorisation) NumPy raises
`LinAlgError`, modelled as `none`; otherwise the exact inverse via the
adjugate formula. -/
def npInv {n : ℕ} (A : Fin n → Fin n → ℚ) : Option (Fin n → Fin n → ℚ) :=
  if Matrix.det (Matrix.of A) = 0 then none
  else some (fun i j => (Matrix.det (Matrix.of A))⁻¹ * Matrix.adjugate (Matrix.of A) i j)

/-- The mutable locals of the Newton–Raphson `while` loop: the convergence
error `err`, the current guess `ug`, the latest accepted iterate `un`
(`none` while the Python variable `un` is still unbound — reading it then is
a `NameError`), and the diagnostics `errt[it]` / `countt[it]` written so far
for the current time step. -/
structure NRState (n : ℕ) where
  err : ℚ
  ug : Vec n
  un : Option (Vec n)
  errIt : ℚ
  cntIt : ℕ

/-- One pass of the body of the Newton `while` loop, from state `s`, given
the successfully computed update `un` (the concrete solver's
`ug - np.matmul(np.linalg.inv(jac), ff1)`): the new error
`np.max(np.abs(un - ug) / (np.abs(un) + toll))` recorded into `errt[it]`,
the incremented count recorded into `countt[it]`, and the padded `un`
(`un = np.pad(...)`, `ug = un`) as both the stored iterate and the next
guess — the Python locals are inlined into the successor state. -/
def nrBodyState {n : ℕ} [NeZero n] (toll : ℚ) (bl br : ℕ)
    (un : Vec n) (s : NRState n) : NRState n :=
  ⟨npMax (fun i => |un i - s.ug i| / (|un i| + toll)),
   fixBndT bl br un,
   some (fixBndT bl br un),
   npMax (fun i => |un i - s.ug i| / (|un i| + toll)),
   s.cntIt + 1⟩

/-- The inner `while (err >= toll) and (count < ncount)` loop of
`Newton_Raphson` / `Newton_Raphson_u`: while the guard holds, compute the
Newton update `body ug` — whose inversion may raise `LinAlgError`
(`none`), aborting the whole call — then run `nrBodyState` and continue.
The fuel starts at `ncount` with `count = 0`, so fuel exhaustion is exactly
the `count < ncount` guard failing, an ordinary (non-raising) exit. -/
def nrWhile {n : ℕ} [NeZero n] (toll : ℚ) (bl br : ℕ)
    (body : Vec n → Option (Vec n)) : ℕ → NRState n → Option (NRState n)
  | 0, s => some s
  | fuel + 1, s =>
    if toll ≤ s.err then
      match body s.ug with
      | none => none
      | some un => nrWhile toll bl br body fuel (nrBodyState toll bl br un s)
    else some s

/-- The outer `for it in range(1, nt)` loop of the Newton–Raphson solvers,
producing for each step the tuple `(t[it], unnt[:,it], errt[it], countt[it])`.
`mkBody uo` builds the (fallible) Newton update function of one time step
from the previous column `uo`.  The error carried into the first step is
the module initialisation `err = 1.0`, and after every step the source
resets `err = 1.0` before the next one.  Two abort paths kill the whole
call, both modelled as `none`: a `LinAlgError` raised inside the while loop
(`nrWhile` is `none`), and the `NameError` of reading a still-unbound `un`
when no while-loop iteration has ever executed. -/
def nrSteps {n : ℕ} [NeZero n] (toll : ℚ) (ncount bl br : ℕ) (dt : ℚ)
    (mkBody : Vec n → Vec n → Option (Vec n)) :
    ℕ → ℚ → Vec n → Option (Vec n) → ℚ → Option (List (ℚ × Vec n × ℚ × ℕ))
  | 0, _, _, _, _ => some []
  | k + 1, err, prev, unCarry, tc =>
    match nrWhile toll bl br (mkBody prev) ncount ⟨err, prev, unCarry, 0, 0⟩ with
    | none => none
    | some s =>
      match s.un with
      | none => none
      | some ucol =>
        (nrSteps toll ncount bl br dt mkBody k 1 ucol (some ucol) (tc + dt)).map
          (fun l => (tc + dt, ucol, s.errIt, s.cntIt) :: l)

/-- The `Newton_Raphson(xx, hh, a, dt, nt, toll, ncount, bnd_type="wrap", bnd_limits)`:
returns `(t, unnt, errt, countt)`, or `none` when the run dies with the
`NameError` described at `nrSteps`.  Row 0 of every output is the
initialisation (`t[0] = 0`, `unnt[:,0] = hh`, `errt[0] = 0`, `countt[0] = 0`). -/
def Newton_Raphson {n : ℕ} [NeZero n] (xx hh : Vec n) (a dt : ℚ) (nt : ℕ)
    (toll : ℚ) (ncount bl br : ℕ) :
    Option (List ℚ × List (Vec n) × List ℚ × List ℕ) :=
  (nrSteps toll ncount bl br dt
      (fun uo ug => (npInv (jacobian xx ug a dt)).map
        (fun jinv => fun i => ug i - matVec jinv (NR_f xx ug uo a dt) i))
      (nt - 1) 1 hh none 0).map
    (fun l => (0 :: l.map (fun e => e.1), hh :: l.map (fun e => e.2.1),
               0 :: l.map (fun e => e.2.2.1), 0 :: l.map (fun e => e.2.2.2)))

/-- The `Newton_Raphson_u(xx, hh, dt, nt, toll, ncount, ...)`: the nonlinear
variant, with `jacobian_u` and `NR_f_u` in the loop body. -/
def Newton_Raphson_u {n : ℕ} [NeZero n] (xx hh : Vec n) (dt : ℚ) (nt : ℕ)
    (toll : ℚ) (ncount bl br : ℕ) :
    Option (List ℚ × List (Vec n) × List ℚ × List ℕ) :=
  (nrSteps toll ncount bl br dt
      (fun uo ug => (npInv (jacobian_u xx ug dt)).map
        (fun jinv => fun i => ug i - matVec jinv (NR_f_u xx ug uo dt) i))
      (nt - 1) 1 hh none 0).map
    (fun l => (0 :: l.map (fun e => e.1), hh :: l.map (fun e => e.2.1),
               0 :: l.map (fun e => e.2.2.1), 0 :: l.map (fun e => e.2.2.2)))

/-- The truth value of the guard `np.any(fold) == None` in `hyman`.  For
every argument — including `fold = None` — `np.any` returns a NumPy boolean,
and comparing a boolean with `None` is `False`; the guard therefore never
selects the self-starting branch. -/
def npAnyEqNone {n : ℕ} (fold : Option (Vec n)) : Bool := false

/-- The `hyman_corr(f, fsav, dfdt, c2) = fsav + c2*dfdt`. -/
def hyman_corr {n : ℕ} (f fsav dfdt : Vec n) (c2 : ℚ) : Vec n := fun i =>
  fsav i + c2 * dfdt i

/-- The `hyman_pred(f, fold, dfdt, a1, b1, a2, b2)`: returns the predicted `f`,
the new `fold` (the saved incoming `f`), and `fsav`. -/
def hyman_pred {n : ℕ} (f fold dfdt : Vec n) (a1 b1 a2 b2 : ℚ) :
    Vec n × Vec n × Vec n :=
  let fsav := f
  let tempvar : Vec n := fun i => f i + a1 * (fold i - f i) + b1 * dfdt i
  let fold2 := fsav
  let fsav2 : Vec n := fun i => tempvar i + a2 * (fsav i - tempvar i) + b2 * dfdt i
  (tempvar, fold2, fsav2)

/-- The `hyman(xx, f, dth, a, fold=None, dtold=None, cfl_cut=0.8, ddx, bnd_type,
bnd_limits)`.  The scalar coefficient `a` broadcasts to a constant array for
`step_adv_burgers` (whose first call uses the default `cfl_cut = 0.98`, the
second the caller's).  Because `npAnyEqNone` is constantly `false`, the
self-starting branch (kept here as dead code, mirroring the source) is
unreachable and a call without prior state reaches `ratio = dth / dtold`
with `dtold = None` — a `TypeError`, modelled as `none`. -/
def hyman {n : ℕ} [NeZero n] (xx f : Vec n) (dth a : ℚ) (fold : Option (Vec n))
    (dtold : Option ℚ) (cfl_cut : ℚ) (ddx : DDx n) (bl br : ℕ) :
    Option (Vec n × Vec n × ℚ) :=
  let s1 := step_adv_burgers xx f (fun _ => a) (98 / 100) ddx
  if npAnyEqNone fold then
    let foldOut := f
    let f1 : Vec n := fun i => (f (i - 1) + f (i + 1)) / 2 + s1.2 i * dth
    some (fixBndT bl br f1, foldOut, dth)
  else
    match fold, dtold with
    | some foldv, some dtoldv =>
      let ratio := dth / dtoldv
      let a1 := ratio ^ 2
      let b1 := dth * (1 + ratio)
      let a2 := 2 * (1 + ratio) / (2 + 3 * ratio)
      let b2 := dth * (1 + ratio ^ 2) / (2 + 3 * ratio)
      let c2 := dth * (1 + ratio) / (2 + 3 * ratio)
      let p := hyman_pred f foldv s1.2 a1 b1 a2 b2
      let f3 := fixBndT bl br p.1
      let s2 := step_adv_burgers xx f3 (fun _ => a) cfl_cut ddx
      let f4 := hyman_corr f3 p.2.2 s2.2 c2
      some (fixBndT bl br f4, p.2.1, dth)
    | _, _ => none

/-- The all-zero field, used as the out-of-range default of `List.getD`. -/
def vzero {n : ℕ} : Vec n := fun _ => 0

/-- Test fixture: the uniform grid `[0, 1, 2]`. -/
def xGrid3 : Vec 3 := fun i =>
  if (i : ℕ) = 0 then 0 else if (i : ℕ) = 1 then 1 else 2

/-- Test fixture: the field `[1, 2, 0]`. -/
def uInit3 : Vec 3 := fun i =>
  if (i : ℕ) = 0 then 1 else if (i : ℕ) = 1 then 2 else 0

/-! ## List and loop helper lemmas -/

theorem getD_map_lt {α β : Type} (f : α → β) :
    ∀ (l : List α) (i : ℕ), i < l.length → ∀ (d : α) (d2 : β),
      (l.map f).getD i d2 = f (l.getD i d)
  | x :: xs, 0, _, d, d2 => rfl
  | x :: xs, i + 1, h, d, d2 =>
    getD_map_lt f xs i (by simpa using h) d d2

theorem mem_getD {α : Type} : ∀ (l : List α) (i : ℕ) (d : α), i < l.length →
    l.getD i d ∈ l
  | x :: xs, 0, d, _ => List.mem_cons_self x xs
  | x :: xs, i + 1, d, h =>
    List.mem_cons_of_mem x (mem_getD xs i d (by simpa using h))

theorem evolvLoop_length {n : ℕ} (next : Vec n → ℚ × Vec n) :
    ∀ (k : ℕ) (u : Vec n) (tc : ℚ), (evolvLoop next k u tc).length = k
  | 0, _, _ => rfl
  | k + 1, u, tc => by
    simpa [evolvLoop] using evolvLoop_length next k (next u).2 (tc + (next u).1)

theorem evolvLoop_getD_zero {n : ℕ} (next : Vec n → ℚ × Vec n) (k : ℕ)
    (u : Vec n) (tc : ℚ) (d : ℚ × Vec n) (hk : 0 < k) :
    (evolvLoop next k u tc).getD 0 d = (tc, u) := by
  cases k with
  | zero => omega
  | succ k => rfl

theorem evolvLoop_getD_succ {n : ℕ} (next : Vec n → ℚ × Vec n) :
    ∀ (k i : ℕ) (u : Vec n) (tc : ℚ) (d : ℚ × Vec n), i + 1 < k →
      (evolvLoop next k u tc).getD (i + 1) d =
        ((evolvLoop next k u tc).getD i d |> fun p =>
          (p.1 + (next p.2).1, (next p.2).2))
  | k + 1, 0, u, tc, d, h => by
    show (evolvLoop next k (next u).2 (tc + (next u).1)).getD 0 d = _
    rw [evolvLoop_getD_zero next k _ _ d (by omega)]
    rfl
  | k + 1, i + 1, u, tc, d, h => by
    show (evolvLoop next k (next u).2 (tc + (next u).1)).getD (i + 1) d = _
    rw [evolvLoop_getD_succ next k i _ _ d (by omega)]
    rfl

/-! ## Fold-based minimum / maximum lemmas -/

theorem qmin_le_left (p q : ℚ) : qmin p q ≤ p := by
  unfold qmin; split
  · exact le_rfl
  · exact le_of_not_le (by assumption)

theorem qmin_le_right (p q : ℚ) : qmin p q ≤ q := by
  unfold qmin; split
  · assumption
  · exact le_rfl

theorem lt_qmin {c p q : ℚ} (hp : c < p) (hq : c < q) : c < qmin p q := by
  unfold qmin; split <;> assumption

theorem le_qmax_left (p q : ℚ) : p ≤ qmax p q := by
  unfold qmax; split
  · assumption
  · exact le_rfl

theorem le_qmax_right (p q : ℚ) : q ≤ qmax p q := by
  unfold qmax; split
  · exact le_rfl
  · exact le_of_not_le (by assumption)

theorem qmax_eq_or (p q : ℚ) : qmax p q = p ∨ qmax p q = q := by
  unfold qmax; split
  · exact Or.inr rfl
  · exact Or.inl rfl

theorem foldl_qmin_le_init : ∀ (xs : List ℚ) (x : ℚ), xs.foldl qmin x ≤ x
  | [], x => le_rfl
  | y :: ys, x => (foldl_qmin_le_init ys (qmin x y)).trans (qmin_le_left x y)

theorem foldl_qmin_le_mem :
    ∀ (xs : List ℚ) (x y : ℚ), y ∈ xs → xs.foldl qmin x ≤ y
  | z :: zs, x, y, h => by
    rcases List.mem_cons.mp h with h1 | h2
    · subst h1
      exact (foldl_qmin_le_init zs (qmin x y)).trans (qmin_le_right x y)
    · exact foldl_qmin_le_mem zs (qmin x z) y h2

theorem lt_foldl_qmin :
    ∀ (xs : List ℚ) (x c : ℚ), c < x → (∀ y ∈ xs, c < y) → c < xs.foldl qmin x
  | [], x, c, hx, _ => hx
  | y :: ys, x, c, hx, h => by
    exact lt_foldl_qmin ys (qmin x y) c (lt_qmin hx (h y (List.mem_cons_self y ys)))
      (fun z hz => h z (List.mem_cons_of_mem y hz))

theorem foldl_qmax_ge_init : ∀ (xs : List ℚ) (x : ℚ), x ≤ xs.foldl qmax x
  | [], x => le_rfl
  | y :: ys, x => (le_qmax_left x y).trans (foldl_qmax_ge_init ys (qmax x y))

theorem foldl_qmax_ge_mem :
    ∀ (xs : List ℚ) (x y : ℚ), y ∈ xs → y ≤ xs.foldl qmax x
  | z :: zs, x, y, h => by
    rcases List.mem_cons.mp h with h1 | h2
    · subst h1
      exact (le_qmax_right x y).trans (foldl_qmax_ge_init zs (qmax x y))
    · exact foldl_qmax_ge_mem zs (qmax x z) y h2

theorem foldl_qmax_eq_init_or_mem :
    ∀ (xs : List ℚ) (x : ℚ), xs.foldl qmax x = x ∨ xs.foldl qmax x ∈ xs
  | [], x => Or.inl rfl
  | y :: ys, x => by
    simp only [List.foldl_cons]
    rcases foldl_qmax_eq_init_or_mem ys (qmax x y) with h | h
    · rcases qmax_eq_or x y with h2 | h2
      · exact Or.inl (h.trans h2)
      · right
        rw [h.trans h2]
        exact List.mem_cons_self y ys
    · exact Or.inr (List.mem_cons_of_mem y h)

theorem npMin_le {n : ℕ} (v : Vec n) (j : Fin n) : npMin v ≤ v j := by
  unfold npMin listMin
  have hm : v j ∈ List.ofFn v := (List.mem_ofFn v (v j)).mpr ⟨j, rfl⟩
  cases hl : List.ofFn v with
  | nil => rw [hl] at hm; cases hm
  | cons x xs =>
    rw [hl] at hm
    rcases List.mem_cons.mp hm with h1 | h2
    · exact h1 ▸ foldl_qmin_le_init xs x
    · exact foldl_qmin_le_mem xs x _ h2

theorem lt_npMin {n : ℕ} [NeZero n] (v : Vec n) (c : ℚ)
    (h : ∀ i, c < v i) : c < npMin v := by
  unfold npMin listMin
  cases hl : List.ofFn v with
  | nil =>
    exact absurd (List.ofFn_eq_nil_iff.mp hl) (NeZero.ne n)
  | cons x xs =>
    have hx : ∀ y ∈ x :: xs, c < y := by
      intro y hy
      rw [← hl] at hy
      obtain ⟨i, hi⟩ := (List.mem_ofFn v y).mp hy
      exact hi ▸ h i
    exact lt_foldl_qmin xs x c (hx x (List.mem_cons_self x xs))
      (fun z hz => hx z (List.mem_cons_of_mem x hz))

theorem le_npMax {n : ℕ} (v : Vec n) (j : Fin n) : v j ≤ npMax v := by
  unfold npMax listMax
  have hm : v j ∈ List.ofFn v := (List.mem_ofFn v (v j)).mpr ⟨j, rfl⟩
  cases hl : List.ofFn v with
  | nil => rw [hl] at hm; cases hm
  | cons x xs =>
    rw [hl] at hm
    rcases List.mem_cons.mp hm with h1 | h2
    · exact h1 ▸ foldl_qmax_ge_init xs x
    · exact foldl_qmax_ge_mem xs x _ h2

theorem npMax_eq_index {n : ℕ} [NeZero n] (v : Vec n) : ∃ j, npMax v = v j := by
  unfold npMax listMax
  cases hl : List.ofFn v with
  | nil =>
    exact absurd (List.ofFn_eq_nil_iff.mp hl) (NeZero.ne n)
  | cons x xs =>
    have hmem : ∀ y, y = x ∨ y ∈ xs → y ∈ List.ofFn v := by
      intro y hy
      rw [hl]
      rcases hy with h | h
      · exact h ▸ List.mem_cons_self x xs
      · exact List.mem_cons_of_mem x h
    rcases foldl_qmax_eq_init_or_mem xs x with h | h
    · obtain ⟨i, hi⟩ := (List.mem_ofFn v _).mp (hmem _ (Or.inl h))
      exact ⟨i, hi.symm⟩
    · obtain ⟨i, hi⟩ := (List.mem_ofFn v _).mp (hmem _ (Or.inr h))
      exact ⟨i, hi.symm⟩

/-! ## Boundary-fix lemmas -/

theorem fixBnd_eq_none_iff {n : ℕ} (bl br : ℕ) (u : Vec n) :
    fixBnd bl br u = none ↔ n ≤ bl + br := by
  unfold fixBnd
  split
  · simp only [reduceCtorEq, false_iff]; omega
  · simp only [true_iff]; omega

theorem fixBndT_eq_of_lt {n : ℕ} (bl br : ℕ) (u : Vec n) (h : bl + br < n) :
    fixBnd bl br u = some (fixBndT bl br u) := by
  unfold fixBndT fixBnd
  rw [dif_pos h]
  rfl

theorem fixBndT_retained {n : ℕ} (bl br : ℕ) (u : Vec n) (h : bl + br < n)
    (i : Fin n) (h1 : bl ≤ (i : ℕ)) (h2 : (i : ℕ) < n - br) :
    fixBndT bl br u i = u i := by
  unfold fixBndT fixBnd
  rw [dif_pos h]
  show u ⟨bl + ((((i : ℕ) : ℤ) - (bl : ℤ)) % ((n - bl - br : ℕ) : ℤ)).toNat, _⟩ = u i
  congr 1
  have hmod : (((i : ℕ) : ℤ) - (bl : ℤ)) % ((n - bl - br : ℕ) : ℤ) = ((i : ℕ) : ℤ) - (bl : ℤ) := by
    apply Int.emod_eq_of_lt
    · omega
    · omega
  apply Fin.ext
  show bl + ((((i : ℕ) : ℤ) - (bl : ℤ)) % ((n - bl - br : ℕ) : ℤ)).toNat = (i : ℕ)
  rw [hmod]
  omega

theorem fixBndT_mem_slice {n : ℕ} (bl br : ℕ) (u : Vec n) (h : bl + br < n)
    (i : Fin n) : ∃ j : Fin n, bl ≤ (j : ℕ) ∧ (j : ℕ) < n - br ∧
      fixBndT bl br u i = u j := by
  unfold fixBndT fixBnd
  rw [dif_pos h]
  have hm : 0 < n - bl - br := by omega
  have hz : ((n - bl - br : ℕ) : ℤ) ≠ 0 := by exact_mod_cast hm.ne'
  have h0 := Int.emod_nonneg (((i : ℕ) : ℤ) - (bl : ℤ)) hz
  have h1 := Int.emod_lt_of_pos (((i : ℕ) : ℤ) - (bl : ℤ))
    (by exact_mod_cast hm : (0 : ℤ) < ((n - bl - br : ℕ) : ℤ))
  refine ⟨⟨bl + ((((i : ℕ) : ℤ) - (bl : ℤ)) % ((n - bl - br : ℕ) : ℤ)).toNat, by omega⟩,
    by simp, by simp; omega, rfl⟩

/-! ## Gradient and CFL lemmas -/

theorem npGradient_uniform {n : ℕ} (hn : 2 ≤ n) (x : Vec n) (x0 dx : ℚ)
    (hx : ∀ i : Fin n, x i = x0 + (i : ℕ) * dx) :
    ∀ i, npGradient x i = dx := by
  intro i
  have hv : ∀ (k : ℕ) (hk : k < n), vget x k = x0 + k * dx := by
    intro k hk
    unfold vget
    rw [dif_pos hk, hx ⟨k, hk⟩]
  unfold npGradient
  split
  · rw [hv 1 (by omega), hv 0 (by omega)]
    push_cast
    ring
  · split
    · rw [hv (n - 1) (by omega), hv (n - 2) (by omega)]
      have c1 : ((n - 1 : ℕ) : ℚ) = (n : ℚ) - 1 := by
        push_cast [Nat.cast_sub (by omega : 1 ≤ n)]; ring
      have c2 : ((n - 2 : ℕ) : ℚ) = (n : ℚ) - 2 := by
        push_cast [Nat.cast_sub (by omega : 2 ≤ n)]; ring
      rw [c1, c2]
      ring
    · have hi1 : (i : ℕ) + 1 < n := by
        rcases Nat.lt_or_ge ((i : ℕ) + 1) n with h | h
        · exact h
        · exfalso
          have : (i : ℕ) = n - 1 := by omega
          simp_all
      have hi0 : 1 ≤ (i : ℕ) := by
        rcases Nat.eq_zero_or_pos (i : ℕ) with h | h
        · simp_all
        · exact h
      rw [hv ((i : ℕ) + 1) hi1, hv ((i : ℕ) - 1) (by omega)]
      have c1 : (((i : ℕ) - 1 : ℕ) : ℚ) = ((i : ℕ) : ℚ) - 1 := by
        push_cast [Nat.cast_sub hi0]; ring
      rw [c1]
      push_cast
      ring

theorem cfl_adv_burger_uniform {n : ℕ} (hn : 2 ≤ n) (a x : Vec n) (x0 dx : ℚ)
    (hx : ∀ i : Fin n, x i = x0 + (i : ℕ) * dx) :
    cfl_adv_burger a x = npMin (fun i => dx / |a i|) := by
  unfold cfl_adv_burger
  congr 1
  funext i
  rw [npGradient_uniform hn x x0 dx hx i]

/-- Positivity and the CFL bound for the uniform-grid advective estimate:
the minimum is positive when the coefficient has no zero, and
`npMax |a| * npMin (dx / |a|) ≤ dx`. -/
theorem npMin_div_abs_pos {n : ℕ} [NeZero n] (a : Vec n) (dx : ℚ)
    (hdx : 0 < dx) (ha : ∀ i, a i ≠ 0) : 0 < npMin (fun i => dx / |a i|) := by
  apply lt_npMin
  intro i
  exact div_pos hdx (abs_pos.mpr (ha i))

theorem npMax_abs_mul_npMin_le {n : ℕ} [NeZero n] (a : Vec n) (dx : ℚ)
    (hdx : 0 < dx) (ha : ∀ i, a i ≠ 0) :
    npMax (fun i => |a i|) * npMin (fun i => dx / |a i|) ≤ dx := by
  obtain ⟨j, hj⟩ := npMax_eq_index (fun i => |a i|)
  have hja : 0 < |a j| := abs_pos.mpr (ha j)
  have h1 : npMin (fun i => dx / |a i|) ≤ dx / |a j| := npMin_le _ j
  calc npMax (fun i => |a i|) * npMin (fun i => dx / |a i|)
      ≤ npMax (fun i => |a i|) * (dx / |a j|) := by
        apply mul_le_mul_of_nonneg_left h1
        rw [hj]; exact hja.le
    _ = |a j| * (dx / |a j|) := by rw [hj]
    _ = dx := by field_simp

/-! ## Cyclic sums and the Rusanov candidate -/

theorem sum_cyclic_shift {n : ℕ} [NeZero n] (F : Fin n → ℚ) :
    (∑ j, F (j - 1)) = ∑ j, F j :=
  Equiv.sum_comp (Equiv.subRight (1 : Fin n)) F

/-- The flux-differencing Rusanov candidate conserves the discrete sum
exactly, for every state and every step size — a cyclic telescoping sum. -/
theorem rieCand_sum {n : ℕ} [NeZero n] (xx u : Vec n) (dt : ℚ) :
    (∑ j, rieCand xx u dt j) = ∑ j, u j := by
  simp only [rieCand]
  rw [Finset.sum_sub_distrib]
  have h1 : (∑ j, (rieFlux u j - rieFlux u (j - 1))) = 0 := by
    rw [Finset.sum_sub_distrib, sum_cyclic_shift (rieFlux u), sub_self]
  have h2 : (∑ j, dt * ((rieFlux u j - rieFlux u (j - 1)) / (vget xx 1 - vget xx 0))) = 0 := by
    rw [← Finset.mul_sum, ← Finset.sum_div, h1, zero_div, mul_zero]
  rw [h2, sub_zero]

/-! ## Projections of the time-marching loop -/

theorem evolv_snd_len {n : ℕ} (next : Vec n → ℚ × Vec n) (nt : ℕ) (u0 : Vec n) :
    ((evolvLoop next nt u0 0).map Prod.snd).length = nt := by
  rw [List.length_map, evolvLoop_length]

theorem evolv_fst_len {n : ℕ} (next : Vec n → ℚ × Vec n) (nt : ℕ) (u0 : Vec n) :
    ((evolvLoop next nt u0 0).map Prod.fst).length = nt := by
  rw [List.length_map, evolvLoop_length]

theorem evolv_snd_zero {n : ℕ} (next : Vec n → ℚ × Vec n) (nt : ℕ) (u0 : Vec n)
    (h : 0 < nt) : ((evolvLoop next nt u0 0).map Prod.snd).getD 0 vzero = u0 := by
  rw [getD_map_lt Prod.snd _ 0 (by rw [evolvLoop_length]; omega) ((0 : ℚ), vzero),
    evolvLoop_getD_zero next nt u0 0 _ h]

theorem evolv_fst_zero {n : ℕ} (next : Vec n → ℚ × Vec n) (nt : ℕ) (u0 : Vec n)
    (h : 0 < nt) : ((evolvLoop next nt u0 0).map Prod.fst).getD 0 0 = 0 := by
  rw [getD_map_lt Prod.fst _ 0 (by rw [evolvLoop_length]; omega) ((0 : ℚ), vzero),
    evolvLoop_getD_zero next nt u0 0 _ h]

theorem evolv_snd_succ {n : ℕ} (next : Vec n → ℚ × Vec n) (nt i : ℕ) (u0 : Vec n)
    (h : i + 1 < nt) :
    ((evolvLoop next nt u0 0).map Prod.snd).getD (i + 1) vzero
      = (next (((evolvLoop next nt u0 0).map Prod.snd).getD i vzero)).2 := by
  rw [getD_map_lt Prod.snd _ (i + 1) (by rw [evolvLoop_length]; omega) ((0 : ℚ), vzero),
    evolvLoop_getD_succ next nt i u0 0 _ h,
    getD_map_lt Prod.snd _ i (by rw [evolvLoop_length]; omega) ((0 : ℚ), vzero)]

theorem evolv_fst_succ {n : ℕ} (next : Vec n → ℚ × Vec n) (nt i : ℕ) (u0 : Vec n)
    (h : i + 1 < nt) :
    ((evolvLoop next nt u0 0).map Prod.fst).getD (i + 1) 0
      = ((evolvLoop next nt u0 0).map Prod.fst).getD i 0
        + (next (((evolvLoop next nt u0 0).map Prod.snd).getD i vzero)).1 := by
  rw [getD_map_lt Prod.fst _ (i + 1) (by rw [evolvLoop_length]; omega) ((0 : ℚ), vzero),
    evolvLoop_getD_succ next nt i u0 0 _ h,
    getD_map_lt Prod.fst _ i (by rw [evolvLoop_length]; omega) ((0 : ℚ), vzero),
    getD_map_lt Prod.snd _ i (by rw [evolvLoop_length]; omega) ((0 : ℚ), vzero)]

/-! ## Newton–Raphson control-flow lemmas -/

theorem nrWhile_cnt_le {n : ℕ} [NeZero n] (toll : ℚ) (bl br : ℕ)
    (body : Vec n → Option (Vec n)) :
    ∀ (fuel : ℕ) (s s2 : NRState n),
      nrWhile toll bl br body fuel s = some s2 → s.cntIt ≤ s2.cntIt
  | 0, s, s2, h => by
    rw [Option.some.inj h]
  | fuel + 1, s, s2, h => by
    unfold nrWhile at h
    split at h
    · cases hb : body s.ug with
      | none =>
        rw [hb] at h
        exact Option.noConfusion h
      | some un =>
        rw [hb] at h
        exact le_trans (Nat.le_succ s.cntIt)
          (nrWhile_cnt_le toll bl br body fuel (nrBodyState toll bl br un s) s2 h)
    · rw [Option.some.inj h]

theorem nrWhile_un_isSome {n : ℕ} [NeZero n] (toll : ℚ) (bl br : ℕ)
    (body : Vec n → Option (Vec n)) :
    ∀ (fuel : ℕ) (s s2 : NRState n), s.un.isSome →
      nrWhile toll bl br body fuel s = some s2 → s2.un.isSome
  | 0, s, s2, hu, h => by
    rw [← Option.some.inj h]
    exact hu
  | fuel + 1, s, s2, hu, h => by
    unfold nrWhile at h
    split at h
    · cases hb : body s.ug with
      | none =>
        rw [hb] at h
        exact Option.noConfusion h
      | some un =>
        rw [hb] at h
        exact nrWhile_un_isSome toll bl br body fuel (nrBodyState toll bl br un s) s2 rfl h
    · rw [← Option.some.inj h]
      exact hu

/-- Any state the while loop *returns* after entering at least one
iteration (positive fuel, guard holding) has run the body at least once:
its count is positive and its `un` is bound. -/
theorem nrWhile_run {n : ℕ} [NeZero n] (toll : ℚ) (bl br : ℕ)
    (body : Vec n → Option (Vec n)) (fuel : ℕ) (s s2 : NRState n)
    (hf : 1 ≤ fuel) (he : toll ≤ s.err)
    (h : nrWhile toll bl br body fuel s = some s2) :
    1 ≤ s2.cntIt ∧ s2.un.isSome := by
  cases fuel with
  | zero => omega
  | succ fuel =>
    unfold nrWhile at h
    rw [if_pos he] at h
    cases hb : body s.ug with
    | none =>
      rw [hb] at h
      exact Option.noConfusion h
    | some un =>
      rw [hb] at h
      constructor
      · exact le_trans (by omega : 1 ≤ s.cntIt + 1)
          (nrWhile_cnt_le toll bl br body fuel (nrBodyState toll bl br un s) s2 h)
      · exact nrWhile_un_isSome toll bl br body fuel (nrBodyState toll bl br un s) s2 rfl h

/-- The while loop itself never aborts when every Newton update succeeds:
both its exits (tolerance reached, count cap reached) are ordinary. -/
theorem nrWhile_total {n : ℕ} [NeZero n] (toll : ℚ) (bl br : ℕ)
    (body : Vec n → Option (Vec n)) (hbody : ∀ u, (body u).isSome = true) :
    ∀ (fuel : ℕ) (s : NRState n), (nrWhile toll bl br body fuel s).isSome = true
  | 0, s => rfl
  | fuel + 1, s => by
    unfold nrWhile
    split
    · cases hb : body s.ug with
      | none =>
        have hx := hbody s.ug
        rw [hb] at hx
        exact absurd hx (by simp)
      | some un =>
        exact nrWhile_total toll bl br body hbody fuel (nrBodyState toll bl br un s)
    · rfl

/-- Structural facts about any list of step records the outer loop manages
to return, given a tolerance at most the carried initial error `1.0` and a
positive iteration cap: one record per step, each recording at least one
Newton iteration. -/
theorem nrSteps_props {n : ℕ} [NeZero n] (toll : ℚ) (ncount bl br : ℕ)
    (dt : ℚ) (mkBody : Vec n → Vec n → Option (Vec n))
    (htoll : toll ≤ 1) (hnc : 1 ≤ ncount) :
    ∀ (k : ℕ) (prev : Vec n) (unc : Option (Vec n)) (tc : ℚ) (l : List (ℚ × Vec n × ℚ × ℕ)),
      nrSteps toll ncount bl br dt mkBody k 1 prev unc tc = some l →
        l.length = k ∧ ∀ e ∈ l, 1 ≤ e.2.2.2
  | 0, prev, unc, tc, l, h => by
    rw [← Option.some.inj h]
    exact ⟨rfl, by intro e he; cases he⟩
  | k + 1, prev, unc, tc, l, h => by
    unfold nrSteps at h
    cases hw : nrWhile toll bl br (mkBody prev) ncount ⟨1, prev, unc, 0, 0⟩ with
    | none =>
      rw [hw] at h
      exact Option.noConfusion h
    | some s =>
      rw [hw] at h
      obtain ⟨hc, hs⟩ := nrWhile_run toll bl br (mkBody prev) ncount
        ⟨1, prev, unc, 0, 0⟩ s hnc htoll hw
      obtain ⟨ucol, hucol⟩ := Option.isSome_iff_exists.mp hs
      have h2 : (match s.un with
          | none => none
          | some ucol =>
            (nrSteps toll ncount bl br dt mkBody k 1 ucol (some ucol) (tc + dt)).map
              (fun l => (tc + dt, ucol, s.errIt, s.cntIt) :: l)) = some l := h
      rw [hucol] at h2
      have h3 : (nrSteps toll ncount bl br dt mkBody k 1 ucol (some ucol) (tc + dt)).map
          (fun l => (tc + dt, ucol, s.errIt, s.cntIt) :: l) = some l := h2
      cases hrec : nrSteps toll ncount bl br dt mkBody k 1 ucol (some ucol) (tc + dt) with
      | none =>
        rw [hrec] at h3
        exact Option.noConfusion h3
      | some l2 =>
        rw [hrec] at h3
        obtain ⟨hlen, hcnt⟩ := nrSteps_props toll ncount bl br dt mkBody htoll hnc
          k ucol (some ucol) (tc + dt) l2 hrec
        have hl : l = (tc + dt, ucol, s.errIt, s.cntIt) :: l2 := (Option.some.inj h3).symm
        subst hl
        refine ⟨by simpa using hlen, ?_⟩
        intro e he
        rcases List.mem_cons.mp he with h1 | h2
        · subst h1
          exact hc
        · exact hcnt e h2

/-- Completion of the outer loop when no Newton update along it can fail:
with `toll ≤ 1` and `ncount ≥ 1`, the only abort sources are a failed
inversion (`LinAlgError`) or the unbound-`un` `NameError`, and neither can
occur. -/
theorem nrSteps_total {n : ℕ} [NeZero n] (toll : ℚ) (ncount bl br : ℕ)
    (dt : ℚ) (mkBody : Vec n → Vec n → Option (Vec n))
    (htoll : toll ≤ 1) (hnc : 1 ≤ ncount)
    (hbody : ∀ uo ug, (mkBody uo ug).isSome = true) :
    ∀ (k : ℕ) (prev : Vec n) (unc : Option (Vec n)) (tc : ℚ),
      ∃ l, nrSteps toll ncount bl br dt mkBody k 1 prev unc tc = some l
  | 0, prev, unc, tc => ⟨[], rfl⟩
  | k + 1, prev, unc, tc => by
    have hw := nrWhile_total toll bl br (mkBody prev) (hbody prev) ncount
      ⟨1, prev, unc, 0, 0⟩
    obtain ⟨s, hs⟩ := Option.isSome_iff_exists.mp hw
    obtain ⟨hc, hsu⟩ := nrWhile_run toll bl br (mkBody prev) ncount
      ⟨1, prev, unc, 0, 0⟩ s hnc htoll hs
    obtain ⟨ucol, hucol⟩ := Option.isSome_iff_exists.mp hsu
    obtain ⟨l, hl⟩ := nrSteps_total toll ncount bl br dt mkBody htoll hnc hbody
      k ucol (some ucol) (tc + dt)
    refine ⟨(tc + dt, ucol, s.errIt, s.cntIt) :: l, ?_⟩
    unfold nrSteps
    rw [hs]
    show (match s.un with
      | none => none
      | some ucol =>
        (nrSteps toll ncount bl br dt mkBody k 1 ucol (some ucol) (tc + dt)).map
          (fun l => (tc + dt, ucol, s.errIt, s.cntIt) :: l))
      = some ((tc + dt, ucol, s.errIt, s.cntIt) :: l)
    rw [hucol]
    show (nrSteps toll ncount bl br dt mkBody k 1 ucol (some ucol) (tc + dt)).map
        (fun l => (tc + dt, ucol, s.errIt, s.cntIt) :: l)
      = some ((tc + dt, ucol, s.errIt, s.cntIt) :: l)
    rw [hl]
    rfl

/-! ## Claim theorems -/

/-- Claim C1 (amended). For every grid, initial field, `nt` and step
`i < nt - 1`, the flux-differencing candidate computed by
`evolv_Rie_uadv_burgers` (with its accepted step size
`dt = cfl_adv_burger(v_a, xx)`) conserves the discrete sum exactly
*before* boundary re-padding, and the stored column `i+1` is the wrap
re-padding (margins `[1, 0]`) of that candidate — which, as
`C1_counterexample` shows, does not preserve the sum in general. -/
theorem C1_rie_conservation_before_padding {n : ℕ} [NeZero n] (xx hh : Vec n)
    (nt : ℕ) (cfl_cut : ℚ) (ddx : DDx n) (i : ℕ) (h : i + 1 < nt) :
    (∑ j, rieCand xx ((evolv_Rie_uadv_burgers xx hh nt cfl_cut ddx 1 0).2.getD i vzero)
        (cfl_adv_burger (rieVa ((evolv_Rie_uadv_burgers xx hh nt cfl_cut ddx 1 0).2.getD i vzero)) xx) j)
      = (∑ j, (evolv_Rie_uadv_burgers xx hh nt cfl_cut ddx 1 0).2.getD i vzero j) ∧
    (evolv_Rie_uadv_burgers xx hh nt cfl_cut ddx 1 0).2.getD (i + 1) vzero
      = fixBndT 1 0 (rieCand xx ((evolv_Rie_uadv_burgers xx hh nt cfl_cut ddx 1 0).2.getD i vzero)
          (cfl_adv_burger (rieVa ((evolv_Rie_uadv_burgers xx hh nt cfl_cut ddx 1 0).2.getD i vzero)) xx)) := by
  refine ⟨rieCand_sum _ _ _, ?_⟩
  show ((evolvLoop (rieNext xx 1 0) nt hh 0).map Prod.snd).getD (i + 1) vzero = _
  rw [evolv_snd_succ _ nt i hh h]
  rfl

/-- Claim C2. For every grid, initial field, coefficient and `nt ≥ 2`,
`evolv_adv_burgers` returns a time array of length `nt` with `t[0] = 0`, a
snapshot list of `nt` columns (each of width `N` by construction) with
column 0 the initial field; and for every step `i ≤ nt - 2` it stores
column `i+1` as the boundary-padded candidate `field[i] + rhs*dt` (with
`rhs = -a * ddx(xx, field[i])` and `dt = cfl_adv_burger(a, xx) * cfl_cut`)
and sets `t[i+1] = t[i] + dt` — the loop runs all `nt - 1` steps with no
early termination. -/
theorem C2_evolv_adv_burgers_loop {n : ℕ} (xx hh a : Vec n) (cfl_cut : ℚ)
    (ddx : DDx n) (bl br : ℕ) (nt : ℕ) (hnt : 2 ≤ nt) :
    (evolv_adv_burgers xx hh nt a cfl_cut ddx bl br).1.length = nt
    ∧ (evolv_adv_burgers xx hh nt a cfl_cut ddx bl br).2.length = nt
    ∧ (evolv_adv_burgers xx hh nt a cfl_cut ddx bl br).1.getD 0 0 = 0
    ∧ (evolv_adv_burgers xx hh nt a cfl_cut ddx bl br).2.getD 0 vzero = hh
    ∧ ∀ i, i + 1 < nt →
        (evolv_adv_burgers xx hh nt a cfl_cut ddx bl br).2.getD (i + 1) vzero
          = fixBndT bl br (fun j =>
              (evolv_adv_burgers xx hh nt a cfl_cut ddx bl br).2.getD i vzero j
                + (-(a j) * ddx xx ((evolv_adv_burgers xx hh nt a cfl_cut ddx bl br).2.getD i vzero) j)
                  * (cfl_adv_burger a xx * cfl_cut))
        ∧ (evolv_adv_burgers xx hh nt a cfl_cut ddx bl br).1.getD (i + 1) 0
          = (evolv_adv_burgers xx hh nt a cfl_cut ddx bl br).1.getD i 0
            + cfl_adv_burger a xx * cfl_cut := by
  refine ⟨evolv_fst_len _ nt hh, evolv_snd_len _ nt hh,
    evolv_fst_zero _ nt hh (by omega), evolv_snd_zero _ nt hh (by omega), ?_⟩
  intro i hi
  constructor
  · show ((evolvLoop _ nt hh 0).map Prod.snd).getD (i + 1) vzero = _
    rw [evolv_snd_succ _ nt i hh hi]
    rfl
  · show ((evolvLoop _ nt hh 0).map Prod.fst).getD (i + 1) 0 = _
    rw [evolv_fst_succ _ nt i hh hi]
    rfl

/-- Claim C9. Each step of `evolv_Lax_uadv_burgers` stores as column `i+1` the
boundary-padded Lax candidate whose entry `j` is, with periodic index wrap,
`½(u[j+1] + u[j−1]) − (dt·u[j]/(x[j+1]−x[j−1]))·(u[j+1]−u[j−1])`, where `u`
is column `i` and `dt = cfl_adv_burger(u, xx)` is the step's accepted step
size. -/
theorem C9_lax_candidate_formula {n : ℕ} [NeZero n] (xx hh : Vec n)
    (nt : ℕ) (cfl_cut : ℚ) (ddx : DDx n) (bl br : ℕ) (i : ℕ) (h : i + 1 < nt) :
    (evolv_Lax_uadv_burgers xx hh nt cfl_cut ddx bl br).2.getD (i + 1) vzero
      = fixBndT bl br (fun j =>
          1 / 2 * (((evolv_Lax_uadv_burgers xx hh nt cfl_cut ddx bl br).2.getD i vzero) (j + 1)
              + ((evolv_Lax_uadv_burgers xx hh nt cfl_cut ddx bl br).2.getD i vzero) (j - 1))
            - (cfl_adv_burger ((evolv_Lax_uadv_burgers xx hh nt cfl_cut ddx bl br).2.getD i vzero) xx
                  * ((evolv_Lax_uadv_burgers xx hh nt cfl_cut ddx bl br).2.getD i vzero) j
                  / (xx (j + 1) - xx (j - 1)))
              * (((evolv_Lax_uadv_burgers xx hh nt cfl_cut ddx bl br).2.getD i vzero) (j + 1)
                - ((evolv_Lax_uadv_burgers xx hh nt cfl_cut ddx bl br).2.getD i vzero) (j - 1))) := by
  have harg : ∀ (u : Vec n) (c : ℚ),
      (fun j : Fin n => 1 / 2 * (u (j + 1) + u (j - 1))
          - u j * c / (xx (j + 1) - xx (j - 1)) * (u (j + 1) - u (j - 1)))
      = (fun j : Fin n => 1 / 2 * (u (j + 1) + u (j - 1))
          - (c * u j / (xx (j + 1) - xx (j - 1))) * (u (j + 1) - u (j - 1))) := by
    intro u c
    funext j
    ring
  show ((evolvLoop (laxNext xx cfl_cut ddx bl br) nt hh 0).map Prod.snd).getD (i + 1) vzero = _
  rw [evolv_snd_succ _ nt i hh h]
  show fixBndT bl br (fun j =>
      1 / 2 * (((evolv_Lax_uadv_burgers xx hh nt cfl_cut ddx bl br).2.getD i vzero) (j + 1)
          + ((evolv_Lax_uadv_burgers xx hh nt cfl_cut ddx bl br).2.getD i vzero) (j - 1))
        - ((evolv_Lax_uadv_burgers xx hh nt cfl_cut ddx bl br).2.getD i vzero) j
            * cfl_adv_burger ((evolv_Lax_uadv_burgers xx hh nt cfl_cut ddx bl br).2.getD i vzero) xx
            / (xx (j + 1) - xx (j - 1))
          * (((evolv_Lax_uadv_burgers xx hh nt cfl_cut ddx bl br).2.getD i vzero) (j + 1)
            - ((evolv_Lax_uadv_burgers xx hh nt cfl_cut ddx bl br).2.getD i vzero) (j - 1)))
    = _
  rw [harg ((evolv_Lax_uadv_burgers xx hh nt cfl_cut ddx bl br).2.getD i vzero)
    (cfl_adv_burger ((evolv_Lax_uadv_burgers xx hh nt cfl_cut ddx bl br).2.getD i vzero) xx)]

/-- Claim C10. Two runs of `evolv_Lax_uadv_burgers` that differ only in the
derivative-operator selector `ddx` return identical results (`t` and `unnt`
alike): the `rhs` computed through `ddx` by `step_uadv_burgers` is
discarded, and the accepted step size depends only on the field and the
grid. -/
theorem C10_lax_ddx_irrelevant {n : ℕ} [NeZero n] (xx hh : Vec n) (nt : ℕ)
    (cfl_cut : ℚ) (bl br : ℕ) (ddx1 ddx2 : DDx n) :
    evolv_Lax_uadv_burgers xx hh nt cfl_cut ddx1 bl br
      = evolv_Lax_uadv_burgers xx hh nt cfl_cut ddx2 bl br := by
  have hnext : laxNext xx cfl_cut ddx1 bl br = laxNext xx cfl_cut ddx2 bl br := by
    funext u
    rfl
  unfold evolv_Lax_uadv_burgers
  rw [hnext]

/-- Claim C3 (amended).  On a uniform strictly increasing grid with a
nowhere-zero coefficient and a positive safety factor, every step of
`evolv_adv_burgers` accepts the step size `cfl_adv_burger(a, xx) * cfl_cut`,
which is strictly positive and satisfies the CFL bound
`max|a| · dt / Δx ≤ cfl_cut`; `evolv_Rie_uadv_burgers`, however, accepts
`cfl_adv_burger(v_a, xx)` with NO safety-factor scaling (its `cfl_cut`
argument is ignored), contrary to the original claim — see
`C3_counterexample`. -/
theorem C3_cfl_step_sizes {n : ℕ} [NeZero n] (hn : 2 ≤ n) (xx hh a : Vec n)
    (x0 dx : ℚ) (hdx : 0 < dx) (hx : ∀ i : Fin n, xx i = x0 + (i : ℕ) * dx)
    (ha : ∀ i, a i ≠ 0) (cfl_cut : ℚ) (hc : 0 < cfl_cut) (ddx : DDx n)
    (bl br : ℕ) (nt i : ℕ) (hi : i + 1 < nt) :
    ((evolv_adv_burgers xx hh nt a cfl_cut ddx bl br).1.getD (i + 1) 0
        - (evolv_adv_burgers xx hh nt a cfl_cut ddx bl br).1.getD i 0
        = cfl_adv_burger a xx * cfl_cut)
    ∧ 0 < cfl_adv_burger a xx * cfl_cut
    ∧ npMax (fun j => |a j|) * (cfl_adv_burger a xx * cfl_cut) / dx ≤ cfl_cut
    ∧ ((evolv_Rie_uadv_burgers xx hh nt cfl_cut ddx 1 0).1.getD (i + 1) 0
        - (evolv_Rie_uadv_burgers xx hh nt cfl_cut ddx 1 0).1.getD i 0
        = cfl_adv_burger (rieVa ((evolv_Rie_uadv_burgers xx hh nt cfl_cut ddx 1 0).2.getD i vzero)) xx) := by
  have hcfl : cfl_adv_burger a xx = npMin (fun i => dx / |a i|) :=
    cfl_adv_burger_uniform hn a xx x0 dx hx
  refine ⟨?_, ?_, ?_, ?_⟩
  · show ((evolvLoop (fun u =>
        ((step_adv_burgers xx u a cfl_cut ddx).1,
          fixBndT bl br (fun j => u j + (step_adv_burgers xx u a cfl_cut ddx).2 j
            * (step_adv_burgers xx u a cfl_cut ddx).1))) nt hh 0).map Prod.fst).getD (i + 1) 0
      - ((evolvLoop (fun u =>
        ((step_adv_burgers xx u a cfl_cut ddx).1,
          fixBndT bl br (fun j => u j + (step_adv_burgers xx u a cfl_cut ddx).2 j
            * (step_adv_burgers xx u a cfl_cut ddx).1))) nt hh 0).map Prod.fst).getD i 0
      = cfl_adv_burger a xx * cfl_cut
    rw [evolv_fst_succ _ nt i hh hi, add_sub_cancel_left]
    rfl
  · rw [hcfl]
    exact mul_pos (npMin_div_abs_pos a dx hdx ha) hc
  · rw [hcfl]
    have hM : 0 ≤ npMax (fun j => |a j|) :=
      le_trans (abs_nonneg (a ⟨0, Nat.pos_of_ne_zero (NeZero.ne n)⟩))
        (le_npMax (fun j => |a j|) ⟨0, Nat.pos_of_ne_zero (NeZero.ne n)⟩)
    have key := npMax_abs_mul_npMin_le a dx hdx ha
    have step1 : npMax (fun j => |a j|) * npMin (fun i => dx / |a i|) * cfl_cut
        ≤ dx * cfl_cut := mul_le_mul_of_nonneg_right key hc.le
    calc npMax (fun j => |a j|) * (npMin (fun i => dx / |a i|) * cfl_cut) / dx
        = npMax (fun j => |a j|) * npMin (fun i => dx / |a i|) * cfl_cut / dx := by ring
      _ ≤ dx * cfl_cut / dx := (div_le_div_iff_of_pos_right hdx).mpr step1
      _ = cfl_cut := by field_simp
  · show ((evolvLoop (rieNext xx 1 0) nt hh 0).map Prod.fst).getD (i + 1) 0
      - ((evolvLoop (rieNext xx 1 0) nt hh 0).map Prod.fst).getD i 0
      = cfl_adv_burger (rieVa ((evolv_Rie_uadv_burgers xx hh nt cfl_cut ddx 1 0).2.getD i vzero)) xx
    rw [evolv_fst_succ _ nt i hh hi, add_sub_cancel_left]
    rfl

/-- Packing lemma shared by the two Newton–Raphson solvers, conditional
side: any returned output quadruple has every row of length `nt` and, with
a tolerance at most the carried initial error `1.0` and a positive
iteration cap, records at least one Newton iteration in every completed
step. -/
theorem nr_pack_props {n : ℕ} [NeZero n] (toll : ℚ) (ncount bl br : ℕ) (dt : ℚ)
    (mkBody : Vec n → Vec n → Option (Vec n)) (hh : Vec n) (nt : ℕ)
    (hnt : 2 ≤ nt) (htoll : toll ≤ 1) (hnc : 1 ≤ ncount)
    (t : List ℚ) (unnt : List (Vec n)) (errt : List ℚ) (countt : List ℕ)
    (h : ((nrSteps toll ncount bl br dt mkBody (nt - 1) 1 hh none 0).map
        (fun l => ((0 : ℚ) :: l.map (fun e => e.1), hh :: l.map (fun e => e.2.1),
                   (0 : ℚ) :: l.map (fun e => e.2.2.1), (0 : ℕ) :: l.map (fun e => e.2.2.2))))
        = some (t, unnt, errt, countt)) :
    t.length = nt ∧ unnt.length = nt ∧ errt.length = nt ∧ countt.length = nt
      ∧ ∀ it, 1 ≤ it → it < nt → 1 ≤ countt.getD it 0 := by
  cases hx : nrSteps toll ncount bl br dt mkBody (nt - 1) 1 hh none 0 with
  | none =>
    rw [hx] at h
    exact Option.noConfusion h
  | some l =>
    rw [hx] at h
    obtain ⟨hlen, hcnt⟩ := nrSteps_props toll ncount bl br dt mkBody htoll hnc
      (nt - 1) hh none 0 l hx
    have hpack := Option.some.inj h
    have ht : t = (0 : ℚ) :: l.map (fun e => e.1) := (congrArg Prod.fst hpack).symm
    have hu : unnt = hh :: l.map (fun e => e.2.1) :=
      (congrArg (fun p => p.2.1) hpack).symm
    have he : errt = (0 : ℚ) :: l.map (fun e => e.2.2.1) :=
      (congrArg (fun p => p.2.2.1) hpack).symm
    have hc : countt = (0 : ℕ) :: l.map (fun e => e.2.2.2) :=
      (congrArg (fun p => p.2.2.2) hpack).symm
    refine ⟨by rw [ht]; simp [hlen]; omega, by rw [hu]; simp [hlen]; omega,
      by rw [he]; simp [hlen]; omega, by rw [hc]; simp [hlen]; omega, ?_⟩
    intro it h1 h2
    rw [hc]
    cases it with
    | zero => omega
    | succ j =>
      show (l.map (fun e => e.2.2.2)).getD j 0 ≥ 1
      rw [getD_map_lt (fun e => e.2.2.2) l j (by omega) ((0 : ℚ), vzero, (0 : ℚ), 0)]
      exact hcnt _ (mem_getD l j _ (by omega))

/-- Packing lemma, completion side: when no Newton update along the run can
fail (every inversion succeeds), the run returns. -/
theorem nr_pack_complete {n : ℕ} [NeZero n] (toll : ℚ) (ncount bl br : ℕ) (dt : ℚ)
    (mkBody : Vec n → Vec n → Option (Vec n)) (hh : Vec n) (nt : ℕ)
    (htoll : toll ≤ 1) (hnc : 1 ≤ ncount)
    (hbody : ∀ uo ug, (mkBody uo ug).isSome = true) :
    ∃ t unnt errt countt,
      ((nrSteps toll ncount bl br dt mkBody (nt - 1) 1 hh none 0).map
        (fun l => ((0 : ℚ) :: l.map (fun e => e.1), hh :: l.map (fun e => e.2.1),
                   (0 : ℚ) :: l.map (fun e => e.2.2.1), (0 : ℕ) :: l.map (fun e => e.2.2.2))))
        = some (t, unnt, errt, countt) := by
  obtain ⟨l, hl⟩ := nrSteps_total toll ncount bl br dt mkBody htoll hnc hbody
    (nt - 1) hh none 0
  exact ⟨_, _, _, _, by rw [hl]; rfl⟩

/-- Claim C5 (amended). For every run of `Newton_Raphson` or
`Newton_Raphson_u` with `nt ≥ 2`, a tolerance at most the initial error
value `1.0` and an iteration cap of at least 1: every time step begins with
the convergence flag reset (`err = 1.0 ≥ toll`), so in any run that
*returns*, at least one Newton iteration executed in every step
(`countt[it] ≥ 1` for `it ∈ [1, nt-1]`) and all four outputs have length
`nt`; and exhausting the iteration cap is never an abort source — when no
Jacobian inversion along the run fails, the run is guaranteed to return.
The two abort paths that do exist are the `LinAlgError` of
`np.linalg.inv` on an exactly singular Jacobian and the `NameError` of
`toll > 1` / `ncount = 0` — see `C5_counterexample` for both. -/
theorem C5_newton_runs_complete {n : ℕ} [NeZero n] (xx hh : Vec n)
    (a dt : ℚ) (nt : ℕ) (toll : ℚ) (ncount bl br : ℕ)
    (hnt : 2 ≤ nt) (htoll : toll ≤ 1) (hnc : 1 ≤ ncount) :
    (∀ t unnt errt countt,
        Newton_Raphson xx hh a dt nt toll ncount bl br = some (t, unnt, errt, countt) →
        t.length = nt ∧ unnt.length = nt ∧ errt.length = nt ∧ countt.length = nt
        ∧ ∀ it, 1 ≤ it → it < nt → 1 ≤ countt.getD it 0)
    ∧ (∀ t unnt errt countt,
        Newton_Raphson_u xx hh dt nt toll ncount bl br = some (t, unnt, errt, countt) →
        t.length = nt ∧ unnt.length = nt ∧ errt.length = nt ∧ countt.length = nt
        ∧ ∀ it, 1 ≤ it → it < nt → 1 ≤ countt.getD it 0)
    ∧ ((∀ ug : Vec n, (npInv (jacobian xx ug a dt)).isSome = true) →
        ∃ t unnt errt countt,
          Newton_Raphson xx hh a dt nt toll ncount bl br = some (t, unnt, errt, countt))
    ∧ ((∀ ug : Vec n, (npInv (jacobian_u xx ug dt)).isSome = true) →
        ∃ t unnt errt countt,
          Newton_Raphson_u xx hh dt nt toll ncount bl br = some (t, unnt, errt, countt)) := by
  refine ⟨?_, ?_, ?_, ?_⟩
  · intro t unnt errt countt h
    exact nr_pack_props toll ncount bl br dt
      (fun uo ug => (npInv (jacobian xx ug a dt)).map
        (fun jinv => fun i => ug i - matVec jinv (NR_f xx ug uo a dt) i))
      hh nt hnt htoll hnc t unnt errt countt h
  · intro t unnt errt countt h
    exact nr_pack_props toll ncount bl br dt
      (fun uo ug => (npInv (jacobian_u xx ug dt)).map
        (fun jinv => fun i => ug i - matVec jinv (NR_f_u xx ug uo dt) i))
      hh nt hnt htoll hnc t unnt errt countt h
  · intro hinv
    refine nr_pack_complete toll ncount bl br dt _ hh nt htoll hnc ?_
    intro uo ug
    have hx := hinv ug
    cases hnp : npInv (jacobian xx ug a dt) with
    | none =>
      rw [hnp] at hx
      exact absurd hx (by simp)
    | some jinv => rfl
  · intro hinv
    refine nr_pack_complete toll ncount bl br dt _ hh nt htoll hnc ?_
    intro uo ug
    have hx := hinv ug
    cases hnp : npInv (jacobian_u xx ug dt) with
    | none =>
      rw [hnp] at hx
      exact absurd hx (by simp)
    | some jinv => rfl

/-- All elements `⊤`, so the float minimum is `⊤`. -/
theorem foldl_wmin_top : ∀ (xs : List (WithTop ℚ)) (x : WithTop ℚ),
    x = ⊤ → (∀ y ∈ xs, y = ⊤) → xs.foldl wmin x = ⊤
  | [], x, hx, _ => hx
  | y :: ys, x, hx, h => by
    simp only [List.foldl_cons]
    refine foldl_wmin_top ys (wmin x y) ?_ (fun z hz => h z (List.mem_cons_of_mem y hz))
    rw [hx, h y (List.mem_cons_self y ys)]
    unfold wmin
    split <;> rfl

/-- Claim C7 (amended). Given an everywhere-zero coefficient (a Python scalar
`0` broadcasts to this), both CFL estimators *return the value* `inf`
(`⊤` here): the float division emits a `RuntimeWarning` and yields `inf`,
`np.min` propagates it, and no exception of any kind is raised — there is
no `DomainError` in the code. -/
theorem C7_cfl_zero_coefficient_returns_inf :
    ∀ (n : ℕ) (x : Vec n),
      cfl_adv_burger_fl (fun _ => 0) x = ⊤ ∧ cfl_diff_burger_fl (fun _ => 0) x = ⊤ := by
  intro n x
  constructor
  · unfold cfl_adv_burger_fl listMinFl
    cases hl : List.ofFn (fun i => divFl (npGradient x i) |(0 : ℚ)|) with
    | nil => rfl
    | cons z zs =>
      have hall : ∀ y ∈ z :: zs, y = (⊤ : WithTop ℚ) := by
        intro y hy
        rw [← hl] at hy
        obtain ⟨i, hi⟩ := (List.mem_ofFn _ y).mp hy
        rw [← hi]
        simp [divFl]
      exact foldl_wmin_top zs z (hall z (List.mem_cons_self z zs))
        (fun y hy => hall y (List.mem_cons_of_mem z hy))
  · unfold cfl_diff_burger_fl listMinFl
    cases hl : List.ofFn (fun i => divFl (npGradient x i ^ 2) (2 * |(0 : ℚ)|)) with
    | nil => rfl
    | cons z zs =>
      have hall : ∀ y ∈ z :: zs, y = (⊤ : WithTop ℚ) := by
        intro y hy
        rw [← hl] at hy
        obtain ⟨i, hi⟩ := (List.mem_ofFn _ y).mp hy
        rw [← hi]
        simp [divFl]
      exact foldl_wmin_top zs z (hall z (List.mem_cons_self z zs))
        (fun y hy => hall y (List.mem_cons_of_mem z hy))

/-- Minimum on `WithTop ℚ` commutes with the coercion from `ℚ`. -/
theorem wmin_coe (p q : ℚ) :
    wmin ((p : WithTop ℚ)) ((q : WithTop ℚ)) = ((qmin p q : ℚ) : WithTop ℚ) := by
  unfold wmin qmin
  by_cases h : p ≤ q
  · rw [if_pos (WithTop.coe_le_coe.mpr h), if_pos h]
  · rw [if_neg (fun hc => h (WithTop.coe_le_coe.mp hc)), if_neg h]

theorem foldl_wmin_coe : ∀ (xs : List ℚ) (x : ℚ),
    (xs.map (fun (r : ℚ) => ((r : ℚ) : WithTop ℚ))).foldl wmin (x : WithTop ℚ)
      = ((xs.foldl qmin x : ℚ) : WithTop ℚ)
  | [], x => rfl
  | y :: ys, x => by
    simp only [List.map_cons, List.foldl_cons, wmin_coe]
    exact foldl_wmin_coe ys (qmin x y)

/-- Coincidence of the two embeddings of `cfl_adv_burger` on a coefficient
with no zero: the float-semantics estimate is the coercion of the exact
rational one, so the `WithTop` model departs from the `ℚ` model only on the
division-by-zero domain. -/
theorem cfl_adv_burger_fl_eq_coe {n : ℕ} [NeZero n] (a x : Vec n)
    (ha : ∀ i, a i ≠ 0) :
    cfl_adv_burger_fl a x = ((cfl_adv_burger a x : ℚ) : WithTop ℚ) := by
  unfold cfl_adv_burger_fl cfl_adv_burger npMin
  have hfn : (List.ofFn (fun i => divFl (npGradient x i) |a i|))
      = (List.ofFn (fun i => npGradient x i / |a i|)).map (fun (r : ℚ) => ((r : ℚ) : WithTop ℚ)) := by
    rw [List.map_ofFn]
    congr 1
    funext i
    show divFl (npGradient x i) |a i| = ((npGradient x i / |a i| : ℚ) : WithTop ℚ)
    unfold divFl
    rw [if_neg (abs_ne_zero.mpr (ha i))]
  rw [hfn]
  cases hl : List.ofFn (fun i => npGradient x i / |a i|) with
  | nil => exact absurd (List.ofFn_eq_nil_iff.mp hl) (NeZero.ne n)
  | cons z zs =>
    rw [List.map_cons]
    show (zs.map (fun (r : ℚ) => ((r : ℚ) : WithTop ℚ))).foldl wmin ((z : ℚ) : WithTop ℚ)
      = ((zs.foldl qmin z : ℚ) : WithTop ℚ)
    exact foldl_wmin_coe zs z

/-- Claim C8 (amended). The boundary fix performs no margin validation at
all: it fails (NumPy `ValueError` from wrap-padding an empty slice — there
is no `ConfigError`) exactly when `bl + br ≥ N`, i.e. when the retained
slice is empty.  Otherwise — including margins `≥ N/2`, see
`C8_counterexample` — it returns a full-width array that agrees with its
input on the retained region and draws every entry, cyclically, from the
retained slice. -/
theorem C8_boundary_fix_no_margin_validation {n : ℕ} (bl br : ℕ) (u : Vec n) :
    (fixBnd bl br u = none ↔ n ≤ bl + br)
    ∧ (bl + br < n → ∃ v, fixBnd bl br u = some v
        ∧ (∀ i : Fin n, bl ≤ (i : ℕ) → (i : ℕ) < n - br → v i = u i)
        ∧ (∀ i : Fin n, ∃ j : Fin n, bl ≤ (j : ℕ) ∧ (j : ℕ) < n - br ∧ v i = u j)) := by
  refine ⟨fixBnd_eq_none_iff bl br u, fun h => ?_⟩
  refine ⟨fixBndT bl br u, fixBndT_eq_of_lt bl br u h, ?_, ?_⟩
  · intro i h1 h2
    exact fixBndT_retained bl br u h i h1 h2
  · intro i
    exact fixBndT_mem_slice bl br u h i

/-! ## Concrete evaluations: counterexamples and witnesses

The kernel evaluates the embedded pipeline on concrete rational inputs once
the Batteries rational primitives are locally restored to their definitional
unfolding. -/

section ConcreteEvaluations

attribute [local semireducible] Rat.mul Rat.add Rat.sub Rat.inv

/-- Claim C1 (counterexample). One Rusanov step on the uniform grid
`[0, 1, 2]` from the field `[1, 2, 0]` (margins `[1, 0]`, wrap): the stored
column 1 is `[13/8, 5/8, 13/8]` with sum `31/8`, while column 0 sums to
`3` — the wrap re-padding after the flux-differencing update does NOT
preserve the discrete sum. -/
theorem C1_counterexample :
    (∑ j : Fin 3, (evolv_Rie_uadv_burgers xGrid3 uInit3 2 (49 / 50) deriv_upw 1 0).2.getD 1 vzero j)
        = 31 / 8
    ∧ (∑ j : Fin 3, (evolv_Rie_uadv_burgers xGrid3 uInit3 2 (49 / 50) deriv_upw 1 0).2.getD 0 vzero j)
        = 3
    ∧ ¬ ((∑ j : Fin 3, (evolv_Rie_uadv_burgers xGrid3 uInit3 2 (49 / 50) deriv_upw 1 0).2.getD 1 vzero j)
        = (∑ j : Fin 3, (evolv_Rie_uadv_burgers xGrid3 uInit3 2 (49 / 50) deriv_upw 1 0).2.getD 0 vzero j)) := by
  refine ⟨by decide, by decide, ?_⟩
  intro h
  rw [show (∑ j : Fin 3, (evolv_Rie_uadv_burgers xGrid3 uInit3 2 (49 / 50) deriv_upw 1 0).2.getD 1 vzero j)
      = 31 / 8 from by decide,
    show (∑ j : Fin 3, (evolv_Rie_uadv_burgers xGrid3 uInit3 2 (49 / 50) deriv_upw 1 0).2.getD 0 vzero j)
      = 3 from by decide] at h
  exact absurd h (by decide)

/-- Claim C1 (witness). The pre-padding conservation statement of the amended
claim, instantiated at the concrete grid and field of the counterexample. -/
theorem C1_witness :
    (∑ j : Fin 3, rieCand xGrid3 ((evolv_Rie_uadv_burgers xGrid3 uInit3 2 (49 / 50) deriv_upw 1 0).2.getD 0 vzero)
        (cfl_adv_burger (rieVa ((evolv_Rie_uadv_burgers xGrid3 uInit3 2 (49 / 50) deriv_upw 1 0).2.getD 0 vzero)) xGrid3) j)
      = ∑ j : Fin 3, (evolv_Rie_uadv_burgers xGrid3 uInit3 2 (49 / 50) deriv_upw 1 0).2.getD 0 vzero j :=
  (C1_rie_conservation_before_padding xGrid3 uInit3 2 (49 / 50) deriv_upw 0 (by omega)).1

/-- Claim C2 (witness). The loop contract of `evolv_adv_burgers` at a
concrete two-step run. -/
theorem C2_witness :
    (evolv_adv_burgers xGrid3 uInit3 2 uInit3 (49 / 50) deriv_dnw 0 1).1.length = 2
    ∧ (evolv_adv_burgers xGrid3 uInit3 2 uInit3 (49 / 50) deriv_dnw 0 1).1.getD 0 0 = 0 :=
  ⟨(C2_evolv_adv_burgers_loop xGrid3 uInit3 uInit3 (49 / 50) deriv_dnw 0 1 2 (by omega)).1,
   (C2_evolv_adv_burgers_loop xGrid3 uInit3 uInit3 (49 / 50) deriv_dnw 0 1 2 (by omega)).2.2.1⟩

/-- Claim C3 (counterexample). In the same concrete Rusanov run, the accepted
step size is `t[1] - t[0] = 1/2`, the unscaled CFL estimate, whereas the
claim's `cfl_cut`-scaled value would be `49/50 · 1/2 = 49/100 ≠ 1/2`:
`evolv_Rie_uadv_burgers` ignores the safety factor. -/
theorem C3_counterexample :
    ((evolv_Rie_uadv_burgers xGrid3 uInit3 2 (49 / 50) deriv_upw 1 0).1.getD 1 0
        - (evolv_Rie_uadv_burgers xGrid3 uInit3 2 (49 / 50) deriv_upw 1 0).1.getD 0 0
        = 1 / 2)
    ∧ cfl_adv_burger (rieVa uInit3) xGrid3 * (49 / 50) = 49 / 100
    ∧ ¬ ((1 : ℚ) / 2 = 49 / 100) := by
  refine ⟨by decide, by decide, by decide⟩

/-- Claim C3 (witness). The amended step-size facts at a concrete uniform
grid with the all-ones coefficient. -/
theorem C3_witness :
    0 < cfl_adv_burger (fun _ => (1 : ℚ)) xGrid3 * (49 / 50) :=
  (C3_cfl_step_sizes (by omega) xGrid3 uInit3 (fun _ => (1 : ℚ)) 0 1 (by norm_num)
    (by decide) (fun i => by norm_num) (49 / 50) (by norm_num) deriv_dnw 0 1 2 0
    (by omega)).2.1

/-- Claim C4 (code bug). The Jacobian builders guard their subdiagonal with
`if i > 1`, not `i ≥ 1`: at `n = 3`, `xx = [0,1,2]`, `a = dt = 1` the entry
`J[1, 0]` is `0` in both `jacobian` and `jacobian_u`, although the claimed
(and mathematically correct) value `-a*dt/dx²` is `-1 ≠ 0` there. -/
theorem C4_jacobian_subdiagonal_row1_missing :
    jacobian xGrid3 uInit3 1 1 1 0 = 0
    ∧ jacobian_u xGrid3 uInit3 1 1 0 = 0
    ∧ -(1 : ℚ) * 1 / (vget xGrid3 1 - vget xGrid3 0) ^ 2 = -1
    ∧ ¬ ((0 : ℚ) = -1) := by
  refine ⟨by decide, by decide, by decide, by decide⟩

/-- Claim C5 (counterexample). Two concrete aborting runs with `nt = 2`,
refuting "the loop continues through all nt-1 steps" (and, in the first
case, `countt[it] ≥ 1`).  First, tolerance `toll = 3/2 > 1` (both solvers):
the carried convergence flag `err = 1.0` fails the `err >= toll` guard, the
while loop body never executes, and `unnt[:, 1] = un` reads the
never-assigned `un` — a `NameError`, no output at all.  Second,
`Newton_Raphson_u` from the constant field `-1/2` with `dt = 1`: the very
first Jacobian has diagonal `1 + 2·1·(-1/2) = 0` and — thanks to the
`i > 1` subdiagonal guard — an exactly zero first column, so
`np.linalg.inv` raises `LinAlgError` and the run aborts mid-flight. -/
theorem C5_counterexample :
    Newton_Raphson (n := 3) xGrid3 uInit3 1 1 2 (3 / 2) 2 1 1 = none
    ∧ Newton_Raphson_u (n := 3) xGrid3 uInit3 1 2 (3 / 2) 2 1 1 = none
    ∧ Newton_Raphson_u (n := 3) xGrid3 (fun _ => -(1 / 2)) 1 2 (1 / 100000) 2 1 1 = none :=
  ⟨rfl, rfl, rfl⟩

/-- Claim C5 (witness). A concrete completed run: the constant-coefficient
solver at `toll = 1/100000 ≤ 1`, `ncount = 2 ≥ 1`; its Jacobian (which does
not depend on the iterate) has determinant `24 ≠ 0`, so no inversion can
fail and the run returns. -/
theorem C5_witness :
    ∃ t unnt errt countt,
      Newton_Raphson (n := 3) xGrid3 uInit3 1 1 2 (1 / 100000) 2 1 1
        = some (t, unnt, errt, countt) :=
  (C5_newton_runs_complete xGrid3 uInit3 1 1 2 (1 / 100000) 2 1 1
    (by omega) (by norm_num) (by omega)).2.2.1
    (fun ug => (by decide : (npInv (jacobian xGrid3 (vzero : Vec 3) 1 1)).isSome = true))

/-- Claim C6 (code bug). A first call of `hyman` with no prior state: because
`np.any(fold) == None` is `False` even for `fold = None`, the self-starting
branch is dead code and the call evaluates `ratio = dth / dtold` with
`dtold = None` — a `TypeError`.  The claim's "must not raise" scenario
fails at its very first step. -/
theorem C6_hyman_first_call_raises :
    hyman xGrid3 uInit3 1 1 none none (8 / 10) deriv_dnw 0 1 = none := rfl

/-- Claim C7 (counterexample). At the concrete grid `[0, 1, 2]` with the
all-zero coefficient, both estimators *return* `inf` — they do not fail. -/
theorem C7_counterexample :
    cfl_adv_burger_fl (n := 3) (fun _ => 0) xGrid3 = ⊤
    ∧ cfl_diff_burger_fl (n := 3) (fun _ => 0) xGrid3 = ⊤ := by
  refine ⟨by decide, by decide⟩

/-- Claim C8 (counterexample). Margins `(2, 1)` on a width-4 array: the left
margin is `≥ N/2 = 2`, yet the boundary fix succeeds (no error of any
kind), returning the wrap padding `[2, 2, 2, 2]` of the one-point slice. -/
theorem C8_counterexample :
    (fixBnd (n := 4) 2 1 ![0, 1, 2, 3]).isSome = true
    ∧ (fixBnd (n := 4) 2 1 ![0, 1, 2, 3]).getD vzero 0 = 2
    ∧ (fixBnd (n := 4) 2 1 ![0, 1, 2, 3]).getD vzero 3 = 2 := by
  refine ⟨by decide, by decide, by decide⟩

/-- Claim C8 (witness). The amended contract at a concrete in-range margin
pair. -/
theorem C8_witness :
    ∃ v, fixBnd (n := 5) 1 1 ![3, 1, 4, 1, 5] = some v
      ∧ (∀ i : Fin 5, 1 ≤ (i : ℕ) → (i : ℕ) < 5 - 1 → v i = (![3, 1, 4, 1, 5] : Vec 5) i)
      ∧ (∀ i : Fin 5, ∃ j : Fin 5, 1 ≤ (j : ℕ) ∧ (j : ℕ) < 5 - 1
          ∧ v i = (![3, 1, 4, 1, 5] : Vec 5) j) :=
  (C8_boundary_fix_no_margin_validation 1 1 ![3, 1, 4, 1, 5]).2 (by omega)

/-- Claim C9 (witness). The Lax candidate formula at a concrete two-step
run. -/
theorem C9_witness :
    (evolv_Lax_uadv_burgers xGrid3 uInit3 2 (49 / 50) deriv_dnw 0 1).2.getD 1 vzero
      = fixBndT 0 1 (fun j =>
          1 / 2 * (((evolv_Lax_uadv_burgers xGrid3 uInit3 2 (49 / 50) deriv_dnw 0 1).2.getD 0 vzero) (j + 1)
              + ((evolv_Lax_uadv_burgers xGrid3 uInit3 2 (49 / 50) deriv_dnw 0 1).2.getD 0 vzero) (j - 1))
            - (cfl_adv_burger ((evolv_Lax_uadv_burgers xGrid3 uInit3 2 (49 / 50) deriv_dnw 0 1).2.getD 0 vzero) xGrid3
                  * ((evolv_Lax_uadv_burgers xGrid3 uInit3 2 (49 / 50) deriv_dnw 0 1).2.getD 0 vzero) j
                  / (xGrid3 (j + 1) - xGrid3 (j - 1)))
              * (((evolv_Lax_uadv_burgers xGrid3 uInit3 2 (49 / 50) deriv_dnw 0 1).2.getD 0 vzero) (j + 1)
                - ((evolv_Lax_uadv_burgers xGrid3 uInit3 2 (49 / 50) deriv_dnw 0 1).2.getD 0 vzero) (j - 1))) :=
  C9_lax_candidate_formula xGrid3 uInit3 2 (49 / 50) deriv_dnw 0 1 0 (by omega)

/-- Claim C10 (witness). Identical Lax results under two different derivative
operators at a concrete run. -/
theorem C10_witness :
    evolv_Lax_uadv_burgers xGrid3 uInit3 2 (49 / 50) deriv_dnw 0 1
      = evolv_Lax_uadv_burgers xGrid3 uInit3 2 (49 / 50) deriv_upw 0 1 :=
  C10_lax_ddx_irrelevant xGrid3 uInit3 2 (49 / 50) 0 1 deriv_dnw deriv_upw

end ConcreteEvaluations

end NmLib
